import Mathlib

/-!
Verification of the coffee-shop order-lifecycle engine.

The state logic is embedded from the React Native sources:
* `src/screens/MenuScreen.js` — `onMenuItemPress` places an order (queue append,
  id built as `item.id + '--' + uuidv4()`).
* `src/screens/QueueScreen.js` — the `useInterval` callback advances `progress`
  by `(ANIMATION_SPEED * 10) / currentOrder.duration` every 100 ms while
  `progress < 100`, and once `progress >= 100` calls `processOrder`, which
  filters the current order out of the queue, appends it to the pickup list and
  either promotes the next queued order (negating `progress`) or clears the
  station (`progress := 0`); the `useFocusEffect` callback syncs `currentOrder`
  with the head of the queue.
* `src/screens/PickupScreen.js` — `onMenuItemPress` removes an order from the
  pickup list by id.

Shared state (`App.js` / `hooks/index.js`): `queue` and `pickup` arrays in a
React context; `currentOrder` and `progress` are `QueueScreen` component state.
JS numbers are modelled as rationals; the engine is a step function over an
explicit state record, driven by a command list.
-/

namespace CoffeeShop

/-- A catalog entry, from `src/constants/index.js`: `{ id, name, duration }`.
JS coerces the numeric catalog ids to strings when building order ids, so the
id is kept as a string here. -/
structure MenuItem where
  id : String
  name : String
  duration : ℚ
  deriving DecidableEq

/-- The static catalog `MENU` from `src/constants/index.js`. -/
def MENU : List MenuItem :=
  [⟨"1", "café au lait", 4⟩, ⟨"2", "cappuccino", 10⟩, ⟨"3", "espresso", 15⟩]

/-- An order, from `MenuScreen.onMenuItemPress`:
`{ id: item.id + '--' + uuidv4(), name: item.name, duration: item.duration,
createdAt: Date.now() }`. -/
structure Order where
  id : String
  name : String
  duration : ℚ
  createdAt : ℕ
  deriving DecidableEq

/-- Modelled from the spec: `uuidv4()` (external `uuid` library, not part of
this repository) returns a fresh unique token per placement.  It is modelled
as a fresh string derived from a per-engine placement counter; freshness is
what the library guarantees and the spec assumes (`id = fresh unique token`). -/
def uuidFrom (k : ℕ) : String :=
  ⟨List.replicate (k + 1) 'u'⟩

/-- Order-id construction from `MenuScreen.onMenuItemPress`:
`item.id + '--' + uuidv4()`. -/
def mkOrderId (menuItemId : String) (k : ℕ) : String :=
  menuItemId ++ "--" ++ uuidFrom k

/-- The order object built in `MenuScreen.onMenuItemPress`. -/
def mkOrder (m : MenuItem) (k : ℕ) (now : ℕ) : Order :=
  { id := mkOrderId m.id k, name := m.name, duration := m.duration,
    createdAt := now }

/-- `ANIMATION_SPEED` from the constants (`export const ANIMATION_SPEED = 4`). -/
def ANIMATION_SPEED : ℚ := 4

/-- The engine state: the shared `queue`/`pickup` arrays (React context in
`App.js`), `QueueScreen`'s `currentOrder` and `progress` component state, and
the placement counter driving the fresh-uuid model. -/
structure EngineState where
  queue : List Order
  pickup : List Order
  currentOrder : Option Order
  progress : ℚ
  counter : ℕ
  deriving DecidableEq

/-- The initial state: both arrays start empty (`React.useState([])` in
`App.js`), no current order, progress 0. -/
def initState : EngineState :=
  { queue := [], pickup := [], currentOrder := none, progress := 0,
    counter := 0 }

/-- `MenuScreen.onMenuItemPress`: appends a freshly id-ed order to the queue.
There is no failure path for well-formed input. -/
def placeOrder (m : MenuItem) (now : ℕ) (s : EngineState) : EngineState :=
  { s with queue := s.queue ++ [mkOrder m s.counter now],
           counter := s.counter + 1 }

/-- `QueueScreen`'s `useFocusEffect` callback: if the queue is non-empty, set
`currentOrder` to the queue head (`setCurrentOrder(Orders.queue[0])`). -/
def focusSync (s : EngineState) : EngineState :=
  match s.queue with
  | [] => s
  | o :: _ => { s with currentOrder := some o }

/-- `QueueScreen.processOrder`: removes the current order from the queue by id
filter, appends it to pickup, and — reading the stale pre-update queue, as the
handler does — either promotes `queue[indexOf(current) + 1]` while negating
`progress` (`setProgress(previousProgress => -previousProgress)`) when
`queue.length > 1`, or clears the station and resets `progress` to 0.
JS `indexOf` returns `-1` when the id is absent, making the promoted index 0;
the `if any` mirror of that below only matters off the reachable states. -/
def processOrder (s : EngineState) : EngineState :=
  match s.currentOrder with
  | none => s
  | some cur =>
    let queue' := s.queue.filter (fun o => o.id != cur.id)
    let pickup' := s.pickup ++ [cur]
    if s.queue.length > 1 then
      let nextIdx : ℕ :=
        if s.queue.any (fun o => o.id == cur.id) then
          s.queue.findIdx (fun o => o.id == cur.id) + 1
        else 0
      { s with queue := queue', pickup := pickup',
               currentOrder := s.queue[nextIdx]?,
               progress := -s.progress }
    else
      { s with queue := queue', pickup := pickup',
               currentOrder := none, progress := 0 }

/-- The `useInterval` callback in `QueueScreen` (fires every 100 ms): while an
order is current and `progress < 100`, add `(ANIMATION_SPEED * 10) / duration`;
once `progress >= 100` (still with a current order), run `processOrder`. -/
def tick (s : EngineState) : EngineState :=
  match s.currentOrder with
  | none => s
  | some cur =>
    if s.progress < 100 then
      { s with progress := s.progress + ANIMATION_SPEED * 10 / cur.duration }
    else
      processOrder s

/-- `PickupScreen.onMenuItemPress`: remove the tapped order from the pickup
list by id filter.  Total: an absent id leaves the list unchanged. -/
def pickUp (orderId : String) (s : EngineState) : EngineState :=
  { s with pickup := s.pickup.filter (fun o => o.id != orderId) }

/-- Whether an id is present in the pickup list — the observation underlying
the spec-level `{removed: boolean}` result of `pickUp`. -/
def pickupHas (s : EngineState) (orderId : String) : Bool :=
  s.pickup.any (fun o => o.id == orderId)

/-- The `prepping` flag computed in `QueueScreen`'s `renderItem`:
`currentOrder !== null ? item.id === currentOrder.id : false`. -/
def prepping (s : EngineState) (o : Order) : Bool :=
  match s.currentOrder with
  | none => false
  | some cur => o.id == cur.id

/-- The queued orders the UI reports as being prepared. -/
def ordersPreparing (s : EngineState) : List Order :=
  s.queue.filter (prepping s)

/-- The external events that drive the engine: order placement
(`MenuScreen.onMenuItemPress`), a focus/render sync of `currentOrder`
(`useFocusEffect`), one 100 ms interval tick, and a pickup tap
(`PickupScreen.onMenuItemPress`). -/
inductive Cmd where
  | place (m : MenuItem) (now : ℕ)
  | focus
  | tick
  | pickup (orderId : String)
  deriving DecidableEq

/-- Apply one event to the state. -/
def applyCmd (c : Cmd) (s : EngineState) : EngineState :=
  match c with
  | Cmd.place m now => placeOrder m now s
  | Cmd.focus => focusSync s
  | Cmd.tick => tick s
  | Cmd.pickup orderId => pickUp orderId s

/-- Run a chronological list of events from the initial state. -/
def run (cmds : List Cmd) : EngineState :=
  cmds.foldl (fun s c => applyCmd c s) initState

/-- Modelled from the spec: the §4.1 reference progress calculator
`clamp(elapsedMs / (durationSeconds * 1000), 0, 1)`.  No such pure function
exists in the sources; it is stated here only to be compared against the
engine's incremental calculation. -/
def computeProgress (elapsedMs : ℚ) (durationSeconds : ℚ) : ℚ :=
  min 1 (max 0 (elapsedMs / (durationSeconds * 1000)))

/-- The progress recurrence of the `useInterval` callback in isolation: the
value of `progress` after `k` ticks during which one order of duration `d` is
continuously current and never processed. -/
def progressAfterTicks (d : ℚ) : ℕ → ℚ
  | 0 => 0
  | k + 1 =>
    let p := progressAfterTicks d k
    if p < 100 then p + ANIMATION_SPEED * 10 / d else p

/-- The ids of every order held by the engine (queue and pickup). -/
def idsOf (s : EngineState) : List String :=
  (s.queue ++ s.pickup).map (fun o => o.id)

/-- Orders in the sequence they left (or will leave) the queue: the completed
ones in completion order followed by the still-queued ones, projected to ids. -/
def servedIds (s : EngineState) : List String :=
  (s.pickup ++ s.queue).map (fun o => o.id)

/-- Number of trailing `'u'` characters of a string; recovers the placement
counter from an order id produced by `mkOrderId`. -/
def trailingU (str : String) : ℕ :=
  (str.data.reverse.takeWhile (fun c => c == 'u')).length

/-- `currentOrder`, when set, is the head of the queue — the implicit
"current order = queue[0]" convention of `QueueScreen`. -/
def headOk (s : EngineState) : Prop :=
  ∀ cur, s.currentOrder = some cur → s.queue.head? = some cur

/-- The engine invariant: all held order ids are distinct, the current order
is the queue head, and every held id was minted below the counter. -/
def Inv (s : EngineState) : Prop :=
  (idsOf s).Nodup ∧ headOk s ∧
    ∀ o ∈ s.queue ++ s.pickup, trailingU o.id ≤ s.counter

/-- Recognizes pickup-tap events. -/
def isPickupCmd : Cmd → Bool
  | Cmd.pickup _ => true
  | _ => false

/-- The ids handed out to placements in a command list, in placement order,
starting from counter value `k`. -/
def placedIdsAux : List Cmd → ℕ → List String
  | [], _ => []
  | Cmd.place m _ :: cs, k => mkOrderId m.id k :: placedIdsAux cs (k + 1)
  | _ :: cs, k => placedIdsAux cs k

/-- The ids handed out to placements of a full run, in placement order. -/
def placedIds (cs : List Cmd) : List String :=
  placedIdsAux cs 0

/-- The three catalog items of `MENU`, named for concrete scenarios. -/
def cafeItem : MenuItem := ⟨"1", "café au lait", 4⟩

/-- Catalog item 2. -/
def cappItem : MenuItem := ⟨"2", "cappuccino", 10⟩

/-- Catalog item 3. -/
def esprItem : MenuItem := ⟨"3", "espresso", 15⟩

/-! ### Helper lemmas -/

theorem takeWhile_u_replicate (n : ℕ) (l : List Char) :
    List.takeWhile (fun c => c == 'u') (List.replicate n 'u' ++ '-' :: l)
      = List.replicate n 'u' := by
  induction n with
  | zero => simp
  | succ n ih =>
    rw [List.replicate_succ, List.cons_append, List.takeWhile_cons_of_pos (by simp)]
    rw [ih]

theorem trailingU_mkOrderId (mid : String) (k : ℕ) :
    trailingU (mkOrderId mid k) = k + 1 := by
  unfold trailingU mkOrderId uuidFrom
  rw [String.data_append, String.data_append]
  have hdd : ("--" : String).data = ['-', '-'] := rfl
  rw [hdd]
  show (List.reverse (mid.data ++ ['-', '-'] ++ List.replicate (k + 1) 'u')
    |>.takeWhile (fun c => c == 'u')).length = k + 1
  rw [List.reverse_append, List.reverse_append, List.reverse_replicate]
  show (List.takeWhile (fun c => c == 'u')
    (List.replicate (k + 1) 'u' ++ ('-' :: ('-' :: mid.data.reverse)))).length = k + 1
  rw [takeWhile_u_replicate, List.length_replicate]

theorem mkOrderId_ne_of_counter_ne (m1 m2 : String) (k1 k2 : ℕ) (h : k1 ≠ k2) :
    mkOrderId m1 k1 ≠ mkOrderId m2 k2 := by
  intro he
  apply h
  have := congrArg trailingU he
  rw [trailingU_mkOrderId, trailingU_mkOrderId] at this
  omega

theorem mkOrderId_ne_menuItemId (mid : String) (k : ℕ) :
    mkOrderId mid k ≠ mid := by
  intro he
  have := congrArg String.length he
  rw [mkOrderId, String.length_append, String.length_append] at this
  have hu : (uuidFrom k).length = k + 1 := by
    show (String.mk (List.replicate (k + 1) 'u')).length = k + 1
    simp [String.length]
  have hd : ("--" : String).length = 2 := rfl
  omega

theorem queue_eq_cons (s : EngineState) (cur : Order)
    (hho : headOk s) (hcur : s.currentOrder = some cur) :
    s.queue = cur :: s.queue.tail := by
  have h := hho cur hcur
  cases hq : s.queue with
  | nil => rw [hq] at h; simp at h
  | cons a t =>
    rw [hq] at h
    simp only [List.head?] at h
    injection h with h
    subst h
    simp

theorem filter_ne_head (cur : Order) (rest other : List Order)
    (hnd : ((cur :: rest) ++ other).map (fun o => o.id) |>.Nodup) :
    (cur :: rest).filter (fun o => o.id != cur.id) = rest := by
  rw [List.filter_cons]
  have hself : (cur.id != cur.id) = false := by simp
  rw [hself]
  simp only [Bool.false_eq_true, if_false]
  apply List.filter_eq_self.mpr
  intro r hr
  rw [List.cons_append, List.map_cons, List.nodup_cons] at hnd
  have hne : r.id ≠ cur.id := by
    intro he
    exact hnd.1 (by
      rw [← he]
      exact List.mem_map_of_mem _ (List.mem_append_left _ hr))
  simpa using hne

theorem processOrder_spec (s : EngineState) (cur : Order) (hInv : Inv s)
    (hcur : s.currentOrder = some cur) :
    (processOrder s).queue = s.queue.tail ∧
    (processOrder s).pickup = s.pickup ++ [cur] ∧
    (processOrder s).currentOrder = s.queue.tail.head? ∧
    (processOrder s).progress
      = (if s.queue.tail = [] then 0 else -s.progress) ∧
    (processOrder s).counter = s.counter := by
  obtain ⟨hnd, hho, hbound⟩ := hInv
  rcases s with ⟨q, p, co, pr, cnt⟩
  simp only at hcur
  subst hcur
  have hh : q.head? = some cur := hho cur rfl
  cases q with
  | nil => simp at hh
  | cons a q' =>
    have ha : a = cur := by simpa using hh
    subst ha
    simp only [idsOf] at hnd
    cases q' with
    | nil =>
      simp [processOrder]
    | cons b q'' =>
      have hfilter := filter_ne_head a (b :: q'') p hnd
      simp only [processOrder, hfilter]
      have hlen : (a :: b :: q'').length > 1 := by simp
      rw [if_pos hlen]
      have hany : (a :: b :: q'').any (fun o => o.id == a.id) = true := by simp
      rw [if_pos hany]
      have hfind : (a :: b :: q'').findIdx (fun o => o.id == a.id) = 0 := by
        rw [List.findIdx_cons]
        simp
      rw [hfind]
      refine ⟨rfl, rfl, ?_, ?_, rfl⟩
      · simp
      · simp

theorem inv_placeOrder (m : MenuItem) (now : ℕ) (s : EngineState)
    (h : Inv s) : Inv (placeOrder m now s) := by
  obtain ⟨hnd, hho, hbound⟩ := h
  refine ⟨?_, ?_, ?_⟩
  · have hperm :
        ((s.queue ++ [mkOrder m s.counter now]) ++ s.pickup).map (fun o => o.id)
          |>.Perm ((mkOrder m s.counter now :: (s.queue ++ s.pickup)).map
            (fun o => o.id)) := by
      apply List.Perm.map
      rw [List.append_assoc, List.singleton_append]
      exact List.perm_middle
    apply hperm.nodup_iff.mpr
    rw [List.map_cons, List.nodup_cons]
    refine ⟨?_, hnd⟩
    intro hmem
    obtain ⟨o, ho, hid⟩ := List.mem_map.mp hmem
    have hb := hbound o ho
    rw [hid] at hb
    simp only [mkOrder] at hb
    rw [trailingU_mkOrderId] at hb
    omega
  · intro cur hcur
    have hh := hho cur hcur
    show (s.queue ++ [mkOrder m s.counter now]).head? = some cur
    rw [List.head?_append, hh]
    rfl
  · intro o ho
    show trailingU o.id ≤ s.counter + 1
    rcases List.mem_append.mp ho with hq | hp
    · rcases List.mem_append.mp hq with hq' | hnew
      · have := hbound o (List.mem_append_left _ hq')
        omega
      · have : o = mkOrder m s.counter now := by simpa using hnew
        rw [this, mkOrder]
        simp only
        rw [trailingU_mkOrderId]
    · have := hbound o (List.mem_append_right _ hp)
      omega

theorem inv_focusSync (s : EngineState) (h : Inv s) : Inv (focusSync s) := by
  obtain ⟨hnd, hho, hbound⟩ := h
  rw [focusSync.eq_def]
  cases hq : s.queue with
  | nil => exact ⟨hnd, hho, hbound⟩
  | cons a t =>
    refine ⟨?_, ?_, ?_⟩
    · simp only [idsOf] at hnd ⊢
      rw [hq] at hnd
      exact hnd
    · intro cur hcur
      simp only at hcur
      injection hcur with hcur
      simp [hcur]
    · intro o ho
      apply hbound
      rw [hq]
      simpa using ho

theorem inv_pickUp (orderId : String) (s : EngineState)
    (h : Inv s) : Inv (pickUp orderId s) := by
  obtain ⟨hnd, hho, hbound⟩ := h
  refine ⟨?_, hho, ?_⟩
  · apply List.Nodup.sublist ?_ hnd
    apply List.Sublist.map
    exact List.Sublist.append_left (List.filter_sublist _) _
  · intro o ho
    apply hbound
    rcases List.mem_append.mp ho with hq | hp
    · exact List.mem_append_left _ hq
    · exact List.mem_append_right _ (List.mem_of_mem_filter hp)

theorem inv_processOrder (s : EngineState) (h : Inv s) :
    Inv (processOrder s) := by
  cases hcur : s.currentOrder with
  | none => rw [processOrder, hcur]; exact h
  | some cur =>
    obtain ⟨hq', hp', hc', hpr', hcnt'⟩ := processOrder_spec s cur h hcur
    obtain ⟨hnd, hho, hbound⟩ := h
    have hq : s.queue = cur :: s.queue.tail := queue_eq_cons s cur hho hcur
    refine ⟨?_, ?_, ?_⟩
    · rw [idsOf, hq', hp']
      have hperm :
          (s.queue.tail ++ (s.pickup ++ [cur])).map (fun o => o.id)
            |>.Perm ((cur :: (s.queue.tail ++ s.pickup)).map (fun o => o.id)) := by
        apply List.Perm.map
        rw [← List.append_assoc]
        exact List.perm_append_singleton cur _
      apply hperm.nodup_iff.mpr
      simp only [idsOf] at hnd
      rw [hq] at hnd
      simpa using hnd
    · intro c hc
      rw [hc'] at hc
      rw [hq']
      exact hc
    · intro o ho
      rw [hcnt']
      apply hbound
      rw [hq', hp'] at ho
      rcases List.mem_append.mp ho with hq2 | hp2
      · apply List.mem_append_left
        rw [hq]
        exact List.mem_cons_of_mem _ hq2
      · rcases List.mem_append.mp hp2 with hp3 | hcur3
        · exact List.mem_append_right _ hp3
        · have : o = cur := by simpa using hcur3
          rw [this, hq]
          exact List.mem_append_left _ (List.mem_cons_self _ _)

theorem inv_tick (s : EngineState) (h : Inv s) : Inv (tick s) := by
  cases hcur : s.currentOrder with
  | none => rw [tick, hcur]; exact h
  | some cur =>
    simp only [tick, hcur]
    by_cases hp : s.progress < 100
    · rw [if_pos hp]
      obtain ⟨hnd, hho, hbound⟩ := h
      refine ⟨hnd, ?_, hbound⟩
      intro c hc
      simp only at hc
      injection hc with hc
      exact hho c (hcur.trans (by rw [hc]))
    · rw [if_neg hp]
      exact inv_processOrder s h

theorem inv_applyCmd (c : Cmd) (s : EngineState) (h : Inv s) :
    Inv (applyCmd c s) := by
  cases c with
  | place m now => exact inv_placeOrder m now s h
  | focus => exact inv_focusSync s h
  | tick => exact inv_tick s h
  | pickup orderId => exact inv_pickUp orderId s h

theorem inv_initState : Inv initState := by
  refine ⟨?_, ?_, ?_⟩
  · simp [idsOf, initState]
  · intro cur hcur
    simp [initState] at hcur
  · intro o ho
    simp [initState] at ho

theorem inv_foldl (cs : List Cmd) (s : EngineState) (h : Inv s) :
    Inv (cs.foldl (fun s c => applyCmd c s) s) := by
  induction cs generalizing s with
  | nil => exact h
  | cons c cs ih => exact ih _ (inv_applyCmd c s h)

theorem inv_run (cs : List Cmd) : Inv (run cs) :=
  inv_foldl cs initState inv_initState

theorem queue_ids_nodup (s : EngineState) (h : Inv s) :
    (s.queue.map (fun o => o.id)).Nodup := by
  have hnd := h.1
  simp only [idsOf, List.map_append] at hnd
  exact (List.nodup_append.mp hnd).1

theorem pickup_ids_nodup (s : EngineState) (h : Inv s) :
    (s.pickup.map (fun o => o.id)).Nodup := by
  have hnd := h.1
  simp only [idsOf, List.map_append] at hnd
  exact (List.nodup_append.mp hnd).2.1

theorem servedIds_foldl (cs : List Cmd) (s : EngineState) (hInv : Inv s)
    (hnp : ∀ c ∈ cs, isPickupCmd c = false) :
    servedIds (cs.foldl (fun s c => applyCmd c s) s)
      = servedIds s ++ placedIdsAux cs s.counter := by
  induction cs generalizing s with
  | nil => simp [placedIdsAux]
  | cons c cs ih =>
    have hnp' : ∀ c' ∈ cs, isPickupCmd c' = false :=
      fun c' hc' => hnp c' (List.mem_cons_of_mem _ hc')
    rw [List.foldl_cons, ih (applyCmd c s) (inv_applyCmd c s hInv) hnp']
    cases c with
    | place m now =>
      simp only [applyCmd, placeOrder, servedIds, placedIdsAux]
      simp [mkOrder]
    | focus =>
      simp only [applyCmd, placedIdsAux]
      rw [focusSync.eq_def]
      cases hq : s.queue with
      | nil => rfl
      | cons a t =>
        simp only [servedIds]
        rw [hq]
    | tick =>
      simp only [applyCmd, placedIdsAux]
      cases hcur : s.currentOrder with
      | none => rw [tick.eq_def, hcur]
      | some cur =>
        simp only [tick.eq_def, hcur]
        by_cases hp : s.progress < 100
        · rw [if_pos hp]
          simp [servedIds]
        · rw [if_neg hp]
          obtain ⟨hq', hp', _, _, hcnt'⟩ := processOrder_spec s cur hInv hcur
          have hq : s.queue = cur :: s.queue.tail :=
            queue_eq_cons s cur hInv.2.1 hcur
          simp only [servedIds]
          rw [hq', hp', hcnt']
          conv_rhs => rw [hq]
          simp
    | pickup orderId =>
      have := hnp _ (List.mem_cons_self _ _)
      simp [isPickupCmd] at this

theorem length_filter_beq_le_one {α β : Type} [BEq β] [LawfulBEq β]
    (l : List α) (f : α → β) (b : β) (h : (l.map f).Nodup) :
    (l.filter (fun x => f x == b)).length ≤ 1 := by
  induction l with
  | nil => simp
  | cons a l ih =>
    rw [List.map_cons, List.nodup_cons] at h
    rw [List.filter_cons]
    by_cases hfa : (f a == b) = true
    · rw [if_pos hfa]
      have hnil : l.filter (fun x => f x == b) = [] := by
        apply List.filter_eq_nil_iff.mpr
        intro x hx hfx
        apply h.1
        have hx' : f x = b := by simpa using hfx
        have ha' : f a = b := by simpa using hfa
        rw [ha', ← hx']
        exact List.mem_map_of_mem f hx
      rw [hnil]
      simp
    · rw [if_neg hfa]
      exact ih h.2

theorem length_filter_bne_of_mem (l : List Order) (o : Order)
    (h : (l.map (fun x => x.id)).Nodup) (ho : o ∈ l) :
    (l.filter (fun x => x.id != o.id)).length + 1 = l.length := by
  induction l with
  | nil => simp at ho
  | cons a l ih =>
    rw [List.map_cons, List.nodup_cons] at h
    rw [List.filter_cons]
    rcases List.mem_cons.mp ho with rfl | ho'
    · rw [if_neg (by simp)]
      have hself : l.filter (fun x => x.id != o.id) = l := by
        apply List.filter_eq_self.mpr
        intro x hx
        have hne : x.id ≠ o.id := by
          intro he
          exact h.1 (he ▸ List.mem_map_of_mem _ hx)
        simpa using hne
      rw [hself]
      simp
    · have ha : (a.id != o.id) = true := by
        have hne : a.id ≠ o.id := by
          intro he
          exact h.1 (he ▸ List.mem_map_of_mem _ ho')
        simpa using hne
      rw [if_pos ha]
      have := ih h.2 ho'
      simp only [List.length_cons]
      omega

/-! ### Claims -/

section ClaimEvaluation

attribute [local semireducible] Rat.add Rat.mul Rat.inv Rat.sub

set_option maxRecDepth 40000

/-- C1: for every sequence of engine events without pickup taps, the orders
that have reached the pickup (ready) list, followed by the orders still
queued, carry exactly the placement ids in placement order; hence orders reach
the ready collection in the order they were placed, regardless of durations. -/
theorem c1_ready_in_placement_order (cs : List Cmd)
    (hnp : ∀ c ∈ cs, isPickupCmd c = false) :
    servedIds (run cs) = placedIds cs := by
  have h := servedIds_foldl cs initState inv_initState hnp
  rw [run, h]
  simp [servedIds, initState, placedIds]

/-- C1 witness: placing café au lait (4 s), cappuccino (10 s) and espresso
(15 s) back to back and ticking to completion yields the ready list in exactly
that placement order. -/
theorem c1_ready_in_placement_order_witness :
    (∀ c ∈ ([Cmd.place cafeItem 0, Cmd.place cappItem 1, Cmd.place esprItem 2,
        Cmd.focus] ++ List.replicate 138 Cmd.tick), isPickupCmd c = false) ∧
    servedIds (run ([Cmd.place cafeItem 0, Cmd.place cappItem 1,
        Cmd.place esprItem 2, Cmd.focus] ++ List.replicate 138 Cmd.tick))
      = placedIds ([Cmd.place cafeItem 0, Cmd.place cappItem 1,
        Cmd.place esprItem 2, Cmd.focus] ++ List.replicate 138 Cmd.tick) ∧
    (run ([Cmd.place cafeItem 0, Cmd.place cappItem 1, Cmd.place esprItem 2,
        Cmd.focus] ++ List.replicate 138 Cmd.tick)).pickup.map (fun o => o.id)
      = [mkOrderId cafeItem.id 0, mkOrderId cappItem.id 1,
         mkOrderId esprItem.id 2] :=
  ⟨by decide, c1_ready_in_placement_order _ (by decide), by decide⟩

/-- C2: in every reachable engine state, at most one order is reported as
preparing: the queue entries whose id matches the single `currentOrder` slot
number at most one. -/
theorem c2_at_most_one_preparing (cs : List Cmd) :
    (ordersPreparing (run cs)).length ≤ 1 := by
  have hInv := inv_run cs
  have hq := queue_ids_nodup _ hInv
  rw [ordersPreparing]
  cases hcur : (run cs).currentOrder with
  | none =>
    have hnil : (run cs).queue.filter (prepping (run cs)) = [] := by
      apply List.filter_eq_nil_iff.mpr
      intro o ho
      simp [prepping, hcur]
    rw [hnil]
    simp
  | some cur =>
    have hfun : prepping (run cs) = fun o => o.id == cur.id := by
      funext o
      simp [prepping, hcur]
    rw [hfun]
    exact length_filter_beq_le_one (run cs).queue (fun o => o.id) cur.id hq

/-- C3 counterexample: after placing one espresso and the focus sync, the
order is simultaneously the preparing order (`currentOrder`) and a member of
the queued sequence, so queued and preparing are not disjoint. -/
theorem c3_counterexample_preparing_still_queued :
    (run [Cmd.place esprItem 0, Cmd.focus]).currentOrder
      = some (mkOrder esprItem 0 0) ∧
    mkOrder esprItem 0 0 ∈ (run [Cmd.place esprItem 0, Cmd.focus]).queue := by
  decide

/-- C3 amended: queued and ready are disjoint (no order id occurs in both),
and the preparing slot always holds the head of the queued sequence — the
preparing order therefore remains a member of `queued` rather than leaving it. -/
theorem c3_amended_disjointness (cs : List Cmd) :
    (∀ o1 ∈ (run cs).queue, ∀ o2 ∈ (run cs).pickup, o1.id ≠ o2.id) ∧
    (∀ cur, (run cs).currentOrder = some cur →
      (run cs).queue.head? = some cur) := by
  obtain ⟨hnd, hho, _⟩ := inv_run cs
  constructor
  · intro o1 h1 o2 h2 he
    simp only [idsOf, List.map_append] at hnd
    have hd := (List.nodup_append.mp hnd).2.2
    exact hd (List.mem_map_of_mem _ h1)
      (by rw [he]; exact List.mem_map_of_mem _ h2)
  · exact hho

/-- C4 counterexample: with the 4-second item, after 10 ticks (1000 ms of
elapsed time) the engine's progress fraction is already 1, while the spec's
reference calculation `clamp(elapsedMs / (d * 1000), 0, 1)` gives 1/4 — the
implemented calculation is not the reference definition (it runs at
`ANIMATION_SPEED` = 4 times wall-clock speed). -/
theorem c4_counterexample_not_reference_clamp :
    (run ([Cmd.place cafeItem 0, Cmd.focus]
        ++ List.replicate 10 Cmd.tick)).progress / 100 = 1 ∧
    computeProgress 1000 4 = 1 / 4 ∧
    (run ([Cmd.place cafeItem 0, Cmd.focus]
        ++ List.replicate 10 Cmd.tick)).progress / 100
      ≠ computeProgress 1000 4 := by
  decide

/-- C4 amended: the implemented per-tick recurrence starts at 0, is
monotonically non-decreasing in the tick count for a fixed positive duration,
overshoots 100 % by strictly less than one increment instead of clamping at
exactly 1, and reaches 100 % at four times wall-clock speed (for the 4-second
item, at tick 10 = 1000 ms rather than 4000 ms). -/
theorem c4_amended_progress_recurrence (d : ℚ) (hd : 0 < d) :
    progressAfterTicks d 0 = 0 ∧
    (∀ j k, j ≤ k → progressAfterTicks d j ≤ progressAfterTicks d k) ∧
    (∀ k, progressAfterTicks d k < 100 + ANIMATION_SPEED * 10 / d) ∧
    progressAfterTicks 4 10 = 100 := by
  have hpos : 0 < ANIMATION_SPEED * 10 / d := by
    apply div_pos ?_ hd
    norm_num [ANIMATION_SPEED]
  refine ⟨rfl, ?_, ?_, by decide⟩
  · have hmono : ∀ k, progressAfterTicks d k ≤ progressAfterTicks d (k + 1) := by
      intro k
      simp only [progressAfterTicks]
      by_cases hk : progressAfterTicks d k < 100
      · rw [if_pos hk]
        linarith
      · rw [if_neg hk]
    exact fun j k hjk => monotone_nat_of_le_succ hmono hjk
  · intro k
    induction k with
    | zero =>
      simp only [progressAfterTicks]
      linarith
    | succ k ih =>
      simp only [progressAfterTicks]
      by_cases hk : progressAfterTicks d k < 100
      · rw [if_pos hk]
        linarith
      · rw [if_neg hk]
        exact ih

/-- C4 amended witness: instantiated at the espresso duration 15. -/
theorem c4_amended_progress_recurrence_witness :
    (0 : ℚ) < 15 ∧ progressAfterTicks 15 0 = 0 :=
  ⟨by norm_num, (c4_amended_progress_recurrence 15 (by norm_num)).1⟩

/-- C5: the code violates the claim — reachable progress values leave [0, 1].
Preparing an espresso (duration 15) for 38 ticks drives `progress` above 100
(fraction above 1, no clamp), and completing the first of two café au lait
orders negates the progress to −100 (fraction below 0) instead of resetting. -/
theorem c5_progress_leaves_unit_interval :
    100 < (run ([Cmd.place esprItem 0, Cmd.focus]
        ++ List.replicate 38 Cmd.tick)).progress ∧
    1 < (run ([Cmd.place esprItem 0, Cmd.focus]
        ++ List.replicate 38 Cmd.tick)).progress / 100 ∧
    (run ([Cmd.place cafeItem 0, Cmd.place cafeItem 1, Cmd.focus]
        ++ List.replicate 11 Cmd.tick)).progress = -100 ∧
    (run ([Cmd.place cafeItem 0, Cmd.place cafeItem 1, Cmd.focus]
        ++ List.replicate 11 Cmd.tick)).progress / 100 < 0 := by
  decide

/-- C6: the code violates the claim — when the completion chain promotes the
next queued order, `processOrder` sets `progress` to the negation of its
previous value (−100 here), not to 0: after 10 ticks the first café order is
current, and the 11th tick promotes the second order with progress −100. -/
theorem c6_chained_promotion_not_reset_to_zero :
    (run ([Cmd.place cafeItem 0, Cmd.place cafeItem 1, Cmd.focus]
        ++ List.replicate 10 Cmd.tick)).currentOrder
      = some (mkOrder cafeItem 0 0) ∧
    (run ([Cmd.place cafeItem 0, Cmd.place cafeItem 1, Cmd.focus]
        ++ List.replicate 11 Cmd.tick)).currentOrder
      = some (mkOrder cafeItem 1 1) ∧
    (run ([Cmd.place cafeItem 0, Cmd.place cafeItem 1, Cmd.focus]
        ++ List.replicate 11 Cmd.tick)).progress = -100 := by
  decide

/-- C7 counterexample: after the tick on which progress reaches 100 the order
is still reported as preparing and is not yet ready — the completion chain
only runs on the following tick, so there is an observable state where an
order at full progress still reports `preparing`. -/
theorem c7_counterexample_full_progress_still_preparing :
    (run ([Cmd.place cafeItem 0, Cmd.focus]
        ++ List.replicate 10 Cmd.tick)).progress = 100 ∧
    (run ([Cmd.place cafeItem 0, Cmd.focus]
        ++ List.replicate 10 Cmd.tick)).currentOrder
      = some (mkOrder cafeItem 0 0) ∧
    (run ([Cmd.place cafeItem 0, Cmd.focus]
        ++ List.replicate 10 Cmd.tick)).pickup = [] := by
  decide

/-- C7 amended: once progress has reached 100, the completion chain runs
atomically within the next tick handler: that single `tick` moves the current
order to the tail of ready, removes it from the queue, and promotes the next
queued order (the new queue head), which is a different order. -/
theorem c7_amended_completion_on_next_tick (s : EngineState) (cur : Order)
    (hInv : Inv s) (hcur : s.currentOrder = some cur)
    (hp : 100 ≤ s.progress) :
    (tick s).pickup = s.pickup ++ [cur] ∧
    (tick s).queue = s.queue.tail ∧
    (tick s).currentOrder = s.queue.tail.head? ∧
    (∀ c, (tick s).currentOrder = some c → c.id ≠ cur.id) := by
  have htick : tick s = processOrder s := by
    simp only [tick, hcur]
    rw [if_neg (not_lt.mpr hp)]
  obtain ⟨hq', hp', hc', _, _⟩ := processOrder_spec s cur hInv hcur
  rw [htick]
  refine ⟨hp', hq', hc', ?_⟩
  intro c hc hce
  obtain ⟨hnd, hho, _⟩ := hInv
  have hq : s.queue = cur :: s.queue.tail := queue_eq_cons s cur hho hcur
  rw [hc'] at hc
  have hcmem : c ∈ s.queue.tail := by
    cases ht : s.queue.tail with
    | nil => rw [ht] at hc; simp at hc
    | cons b t =>
      rw [ht] at hc
      simp only [List.head?] at hc
      injection hc with hc
      rw [← hc]
      exact List.mem_cons_self _ _
  simp only [idsOf] at hnd
  rw [hq, List.cons_append, List.map_cons, List.nodup_cons] at hnd
  apply hnd.1
  rw [← hce]
  exact List.mem_map_of_mem _ (List.mem_append_left _ hcmem)

/-- C7 amended witness: the state with progress 100 from the counterexample
scenario completes on the very next tick. -/
theorem c7_amended_completion_on_next_tick_witness :
    (run ([Cmd.place cafeItem 0, Cmd.focus]
        ++ List.replicate 10 Cmd.tick)).currentOrder
      = some (mkOrder cafeItem 0 0) ∧
    100 ≤ (run ([Cmd.place cafeItem 0, Cmd.focus]
        ++ List.replicate 10 Cmd.tick)).progress ∧
    (tick (run ([Cmd.place cafeItem 0, Cmd.focus]
        ++ List.replicate 10 Cmd.tick))).pickup
      = (run ([Cmd.place cafeItem 0, Cmd.focus]
        ++ List.replicate 10 Cmd.tick)).pickup ++ [mkOrder cafeItem 0 0] :=
  ⟨by decide, by decide,
    (c7_amended_completion_on_next_tick _ _ (inv_run _) (by decide)
      (by decide)).1⟩

/-- C8: in any reachable state, picking up an order whose id is present in the
ready list removes exactly that order (one fewer element, the order gone, all
others kept with their relative order), the presence observation underlying
the `removed` result is true before and false after, a second pickup of the
same id is a no-op, and the operation is a total function — an absent id is
reported by the false observation, never by an exception. -/
theorem c8_pickUp_removes_exactly_once (s : EngineState) (o : Order)
    (hInv : Inv s) (ho : o ∈ s.pickup) :
    pickupHas s o.id = true ∧
    (pickUp o.id s).pickup.length + 1 = s.pickup.length ∧
    o ∉ (pickUp o.id s).pickup ∧
    (∀ o2 ∈ s.pickup, o2 ≠ o → o2 ∈ (pickUp o.id s).pickup) ∧
    List.Sublist (pickUp o.id s).pickup s.pickup ∧
    pickupHas (pickUp o.id s) o.id = false ∧
    pickUp o.id (pickUp o.id s) = pickUp o.id s := by
  have hnodup := pickup_ids_nodup s hInv
  refine ⟨?_, ?_, ?_, ?_, ?_, ?_, ?_⟩
  · exact List.any_eq_true.mpr ⟨o, ho, by simp⟩
  · exact length_filter_bne_of_mem s.pickup o hnodup ho
  · intro hmem
    have := (List.mem_filter.mp hmem).2
    simp at this
  · intro o2 h2 hne
    apply List.mem_filter.mpr
    refine ⟨h2, ?_⟩
    have : o2.id ≠ o.id := by
      intro he
      exact hne (List.inj_on_of_nodup_map hnodup h2 ho he)
    simpa using this
  · exact List.filter_sublist _
  · rw [pickupHas]
    apply Bool.eq_false_iff.mpr
    intro hany
    obtain ⟨x, hx, hxid⟩ := List.any_eq_true.mp hany
    have := (List.mem_filter.mp hx).2
    rw [eq_of_beq hxid] at this
    simp at this
  · show pickUp o.id { s with
        pickup := s.pickup.filter (fun x => x.id != o.id) }
      = pickUp o.id s
    rw [pickUp, pickUp]
    have hff : (s.pickup.filter (fun x => x.id != o.id)).filter
        (fun x => x.id != o.id)
        = s.pickup.filter (fun x => x.id != o.id) :=
      List.filter_eq_self.mpr (fun y hy => (List.mem_filter.mp hy).2)
    simp only [hff]

/-- C8 witness: in the reachable state where the café au lait order has been
completed, picking it up reports present. -/
theorem c8_pickUp_removes_exactly_once_witness :
    Inv (run ([Cmd.place cafeItem 5, Cmd.focus]
        ++ List.replicate 11 Cmd.tick)) ∧
    mkOrder cafeItem 0 5 ∈ (run ([Cmd.place cafeItem 5, Cmd.focus]
        ++ List.replicate 11 Cmd.tick)).pickup ∧
    pickupHas (run ([Cmd.place cafeItem 5, Cmd.focus]
        ++ List.replicate 11 Cmd.tick)) (mkOrder cafeItem 0 5).id = true :=
  ⟨inv_run _, by decide,
    (c8_pickUp_removes_exactly_once _ _ (inv_run _) (by decide)).1⟩

/-- C9: placing an order always succeeds, appending exactly one order to the
queue; the new order's id (menu-item id, the separator, and a fresh token) is
never equal to the menu item's own id; and two placements — with distinct
fresh tokens, even of the same menu item — receive distinct order ids, as two
consecutive placements do concretely. -/
theorem c9_placeOrder_fresh_unique_ids (s : EngineState) (m1 m2 : MenuItem)
    (k1 k2 now1 now2 : ℕ) (hk : k1 ≠ k2) :
    (placeOrder m1 now1 s).queue = s.queue ++ [mkOrder m1 s.counter now1] ∧
    (mkOrder m1 k1 now1).id ≠ m1.id ∧
    (mkOrder m1 k1 now1).id ≠ (mkOrder m2 k2 now2).id ∧
    (placeOrder m2 now2 (placeOrder m1 now1 s)).queue
      = s.queue ++ [mkOrder m1 s.counter now1,
          mkOrder m2 (s.counter + 1) now2] ∧
    (mkOrder m1 s.counter now1).id ≠ (mkOrder m2 (s.counter + 1) now2).id := by
  refine ⟨rfl, ?_, ?_, ?_, ?_⟩
  · exact mkOrderId_ne_menuItemId m1.id k1
  · exact mkOrderId_ne_of_counter_ne m1.id m2.id k1 k2 hk
  · simp [placeOrder]
  · exact mkOrderId_ne_of_counter_ne m1.id m2.id s.counter (s.counter + 1)
      (by omega)

/-- C9 witness: two café au lait placements from the initial state receive
distinct ids, both distinct from the catalog id. -/
theorem c9_placeOrder_fresh_unique_ids_witness :
    (0 : ℕ) ≠ 1 ∧ (mkOrder cafeItem 0 0).id ≠ cafeItem.id ∧
    (mkOrder cafeItem 0 0).id ≠ (mkOrder cafeItem 1 0).id := by
  have h := c9_placeOrder_fresh_unique_ids initState cafeItem cafeItem 0 1 0 0
    (by decide)
  exact ⟨by decide, h.2.1, h.2.2.1⟩

/-- C10: the pickup handler mutates only the ready list: for every state and
id, the queue, the preparing slot, the progress value and the counter are
unchanged, and the remaining ready orders form a sublist of the old ready
list, preserving their relative order. -/
theorem c10_pickUp_frame (s : EngineState) (orderId : String) :
    (pickUp orderId s).queue = s.queue ∧
    (pickUp orderId s).currentOrder = s.currentOrder ∧
    (pickUp orderId s).progress = s.progress ∧
    (pickUp orderId s).counter = s.counter ∧
    List.Sublist (pickUp orderId s).pickup s.pickup :=
  ⟨rfl, rfl, rfl, rfl, List.filter_sublist _⟩

end ClaimEvaluation

end CoffeeShop
